import Mathlib

set_option maxHeartbeats 1000000

/-!
Verification of the docsearch pipeline (document parser, search manager,
answer synthesizer, batch upload).  Text is embedded as `List Char`;
Python strings of the source become character lists, Python floats become
rationals, backend calls become explicit function parameters.
-/

/-- Whitespace as Python's `str.split()` / `str.strip()` treat ASCII text. -/
def pyIsSpace (c : Char) : Bool :=
  c = ' ' || c = '\t' || c = '\n' || c = '\r' || c = '\x0b' || c = '\x0c'

/-- A character matched by `\w` in the regex `[^\w\s]` of
`DocumentParser._extract_keywords` (ASCII range). -/
def isWordChar (c : Char) : Bool := c.isAlphanum || c = '_'

/-- `text.lower()` (ASCII range). -/
def toLowerStr (s : List Char) : List Char := s.map Char.toLower

/-- `re.sub(r'[^\w\s]', ' ', text.lower())` from
`DocumentParser._extract_keywords`. -/
def cleanText (t : List Char) : List Char :=
  (t.map Char.toLower).map (fun c => if isWordChar c || pyIsSpace c then c else ' ')

/-- Helper for `str.split()`: the accumulator holds the current word reversed. -/
def splitWordsAux : List Char → List Char → List (List Char)
  | [], acc => if acc.isEmpty then [] else [acc.reverse]
  | c :: cs, acc =>
    if pyIsSpace c then
      if acc.isEmpty then splitWordsAux cs [] else acc.reverse :: splitWordsAux cs []
    else splitWordsAux cs (c :: acc)

/-- `str.split()` with no argument: whitespace-separated words, no empties. -/
def splitWords (t : List Char) : List (List Char) := splitWordsAux t []

/-- Left part of `str.strip()`. -/
def stripLeft (l : List Char) : List Char := l.dropWhile pyIsSpace

/-- `str.strip()`: drop whitespace from both ends. -/
def pyStrip (l : List Char) : List Char :=
  ((stripLeft l).reverse.dropWhile pyIsSpace).reverse

/-- `str.rfind(c)`: index of the last occurrence of `c`; `none` plays the
role of Python's `-1`. -/
def rfindIdx (c : Char) : List Char → Option Nat
  | [] => none
  | x :: xs =>
    match rfindIdx c xs with
    | some i => some (i + 1)
    | none => if x = c then some 0 else none

/-- `DocumentParser._generate_summary` with the default `max_chars = 500`:
take the first 500 characters, strip whitespace, and cut after the last
period when that period sits at a positive index (`last_period > 0`). -/
def generate_summary (text : List Char) : List Char :=
  let summary := pyStrip (text.take 500)
  match rfindIdx '.' summary with
  | some i => if 0 < i then summary.take (i + 1) else summary
  | none => summary

/-- `pat` occurs contiguously inside `s`. -/
def SubSeg (pat s : List Char) : Prop := ∃ pre post, s = pre ++ pat ++ post

theorem subSeg_refl (l : List Char) : SubSeg l l := ⟨[], [], by simp⟩

theorem subSeg_trans {a b c : List Char} (h₁ : SubSeg a b) (h₂ : SubSeg b c) :
    SubSeg a c := by
  obtain ⟨p1, q1, rfl⟩ := h₁
  obtain ⟨p2, q2, rfl⟩ := h₂
  exact ⟨p2 ++ p1, q1 ++ q2, by simp⟩

theorem subSeg_take (n : Nat) (l : List Char) : SubSeg (l.take n) l :=
  ⟨[], l.drop n, by simp⟩

theorem subSeg_dropWhile (p : Char → Bool) (l : List Char) :
    SubSeg (l.dropWhile p) l :=
  ⟨l.takeWhile p, [], by simp⟩

theorem subSeg_stripRight (p : Char → Bool) (l : List Char) :
    SubSeg ((l.reverse.dropWhile p).reverse) l := by
  refine ⟨[], (l.reverse.takeWhile p).reverse, ?_⟩
  have h : l = (l.reverse.takeWhile p ++ l.reverse.dropWhile p).reverse := by
    rw [List.takeWhile_append_dropWhile]
    simp
  conv_lhs => rw [h]
  rw [List.reverse_append, List.nil_append]

theorem subSeg_pyStrip (l : List Char) : SubSeg (pyStrip l) l := by
  unfold pyStrip stripLeft
  exact subSeg_trans (subSeg_stripRight pyIsSpace _) (subSeg_dropWhile pyIsSpace l)

theorem length_pyStrip_le (l : List Char) : (pyStrip l).length ≤ l.length := by
  obtain ⟨pre, post, h⟩ := subSeg_pyStrip l
  have h2 := congrArg List.length h
  simp only [List.length_append] at h2
  omega

/-- Claim C10: the derived summary is a contiguous substring of the first
500 characters of the extracted text; summary generation never introduces
characters that are not present, in order, in the document text. -/
theorem c10_summary_substring (text : List Char) :
    SubSeg (generate_summary text) (text.take 500) := by
  unfold generate_summary
  have base : SubSeg (pyStrip (text.take 500)) (text.take 500) :=
    subSeg_pyStrip (text.take 500)
  cases h : rfindIdx '.' (pyStrip (text.take 500)) with
  | none => simpa [h] using base
  | some i =>
    by_cases hi : 0 < i
    · simpa [h, hi] using subSeg_trans (subSeg_take (i + 1) _) base
    · simpa [h, hi] using base

theorem rfindIdx_spec {c : Char} :
    ∀ {l : List Char} {i : Nat}, rfindIdx c l = some i → l[i]? = some c := by
  intro l
  induction l with
  | nil => intro i h; simp [rfindIdx] at h
  | cons x xs ih =>
    intro i h
    unfold rfindIdx at h
    cases hr : rfindIdx c xs with
    | some j =>
      rw [hr] at h
      cases h
      simpa using ih hr
    | none =>
      rw [hr] at h
      by_cases hx : x = c
      · simp [hx] at h
        subst h
        simp [hx]
      · simp [hx] at h

theorem getLast?_take_of_getElem? {l : List Char} {i : Nat} {c : Char}
    (h : l[i]? = some c) : (l.take (i + 1)).getLast? = some c := by
  rw [List.take_succ, h]
  simp

/-- Counterexample to claim C2 as stated: for the text ".abc" a sentence
boundary (the period at index 0) exists before the 500-character cutoff,
but the generated summary is ".abc", which does not end with a period. -/
theorem c2_counterexample :
    '.' ∈ (('.' :: 'a' :: 'b' :: 'c' :: []).take 500) ∧
      (generate_summary ('.' :: 'a' :: 'b' :: 'c' :: [])).getLast? ≠ some '.' := by
  constructor
  · decide
  · decide

/-- Claim C2, amended: the summary is at most 500 characters long, and it
ends with a period whenever the last period of the stripped 500-character
prefix sits at a positive index (the code keeps the whole excerpt when the
only period is the very first character, `last_period > 0`). -/
theorem c2_summary_amended (text : List Char) :
    (generate_summary text).length ≤ 500 ∧
      (∀ i, rfindIdx '.' (pyStrip (text.take 500)) = some i → 0 < i →
        (generate_summary text).getLast? = some '.') := by
  constructor
  · have h1 : (pyStrip (text.take 500)).length ≤ 500 := by
      have ha := length_pyStrip_le (text.take 500)
      have h2 : (text.take 500).length ≤ 500 := List.length_take_le 500 text
      omega
    simp only [generate_summary]
    cases h : rfindIdx '.' (pyStrip (text.take 500)) with
    | none =>
      simp only [h]
      exact h1
    | some i =>
      by_cases hi : 0 < i
      · simp only [h, hi, if_pos]
        have hb := (List.take_sublist (i + 1) (pyStrip (text.take 500))).length_le
        omega
      · simpa [h, hi] using h1
  · intro i h hi
    simp only [generate_summary, h, hi, if_pos]
    exact getLast?_take_of_getElem? (rfindIdx_spec h)

/-- Witness for C2 at the text "ab. cd": the last period of the stripped
prefix is at index 2 > 0 and the summary "ab." ends with a period. -/
theorem c2_witness :
    (generate_summary ('a' :: 'b' :: '.' :: ' ' :: 'c' :: 'd' :: [])).length ≤ 500 ∧
      (generate_summary ('a' :: 'b' :: '.' :: ' ' :: 'c' :: 'd' :: [])).getLast?
        = some '.' :=
  ⟨(c2_summary_amended _).1, (c2_summary_amended _).2 2 (by decide) (by decide)⟩

/-- The stop-word set of `DocumentParser._extract_keywords`, verbatim
(the Python set literal merges its duplicate entries; list membership
behaves the same way). -/
def stopwords : List (List Char) :=
  ["il", "lo", "la", "i", "gli", "le", "un", "uno", "una",
   "di", "a", "da", "in", "con", "su", "per", "tra", "fra",
   "the", "a", "an", "and", "or", "but", "in", "on", "at", "to", "for",
   "of", "with", "by", "from", "is", "are", "was", "were", "be", "been",
   "e", "è", "che", "del", "della", "dei", "delle", "nel", "nella",
   "page", "document", "file", "text"].map String.toList

/-- The `filtered_words` list of `DocumentParser._extract_keywords`:
lowercased, punctuation replaced by blanks, split on whitespace, then
`len(word) > 3 and word not in stopwords`. -/
def filteredWords (text : List Char) : List (List Char) :=
  (splitWords (cleanText text)).filter
    (fun w => decide (3 < w.length) && decide (w ∉ stopwords))

/-- One step of the `word_freq` dict: increment the count of `w`, keeping
first-seen key order (Python dicts preserve insertion order). -/
def bump : List (List Char × Nat) → List Char → List (List Char × Nat)
  | [], w => [(w, 1)]
  | (k, n) :: rest, w =>
    if k = w then (k, n + 1) :: rest else (k, n) :: bump rest w

/-- The `word_freq` dict as an association list in insertion order. -/
def wordFreq (ws : List (List Char)) : List (List Char × Nat) :=
  ws.foldl bump []

/-- Insert into a list sorted by descending count, before the first entry
whose count is not larger: this reproduces the stability of Python's
`sorted(..., key=lambda x: x[1], reverse=True)`. -/
def insertDesc (p : List Char × Nat) : List (List Char × Nat) → List (List Char × Nat)
  | [] => [p]
  | q :: rest => if q.2 ≤ p.2 then p :: q :: rest else q :: insertDesc p rest

/-- Stable sort by descending count. -/
def sortDesc (l : List (List Char × Nat)) : List (List Char × Nat) :=
  l.foldr insertDesc []

/-- `DocumentParser._extract_keywords` with the default `max_keywords = 20`. -/
def extract_keywords (text : List Char) : List (List Char) :=
  ((sortDesc (wordFreq (filteredWords text))).take 20).map Prod.fst

/-- Index of the first occurrence (the length of the list when absent). -/
def firstIdx (w : List Char) : List (List Char) → Nat
  | [] => 0
  | x :: xs => if x = w then 0 else firstIdx w xs + 1

theorem firstIdx_lt_length {w : List Char} :
    ∀ {ws : List (List Char)}, w ∈ ws → firstIdx w ws < ws.length := by
  intro ws
  induction ws with
  | nil => intro h; cases h
  | cons x xs ih =>
    intro h
    by_cases hx : x = w
    · simp [firstIdx, hx]
    · have hmem : w ∈ xs := by
        cases h with
        | head => exact absurd rfl hx
        | tail _ h' => exact h'
      have hlt := ih hmem
      simp [firstIdx, hx]
      omega

theorem firstIdx_append_left {w : List Char} :
    ∀ {ws : List (List Char)} (l' : List (List Char)), w ∈ ws →
      firstIdx w (ws ++ l') = firstIdx w ws := by
  intro ws
  induction ws with
  | nil => intro l' h; cases h
  | cons x xs ih =>
    intro l' h
    by_cases hx : x = w
    · simp [firstIdx, hx]
    · have hmem : w ∈ xs := by
        cases h with
        | head => exact absurd rfl hx
        | tail _ h' => exact h'
      simp [firstIdx, hx, ih l' hmem]

theorem firstIdx_concat_of_not_mem {w : List Char} :
    ∀ {ws : List (List Char)}, w ∉ ws →
      firstIdx w (ws ++ [w]) = ws.length := by
  intro ws
  induction ws with
  | nil => intro _; simp [firstIdx]
  | cons x xs ih =>
    intro h
    have hx : x ≠ w := fun he => h (he ▸ List.mem_cons_self x xs)
    have hxs : w ∉ xs := fun hm => h (List.mem_cons_of_mem x hm)
    simp [firstIdx, hx, ih hxs]

/-- Reading the dict: the value of the first entry carrying key `k`, 0 when
absent. -/
def lookupCount : List (List Char × Nat) → List Char → Nat
  | [], _ => 0
  | (a, n) :: rest, k => if a = k then n else lookupCount rest k

theorem keys_bump (acc : List (List Char × Nat)) (w : List Char) :
    (bump acc w).map Prod.fst =
      if w ∈ acc.map Prod.fst then acc.map Prod.fst
      else acc.map Prod.fst ++ [w] := by
  induction acc with
  | nil => simp [bump]
  | cons q rest ih =>
    obtain ⟨k, n⟩ := q
    by_cases hk : k = w
    · simp [bump, hk]
    · have hkw : ¬ w = k := fun h => hk h.symm
      by_cases hw : w ∈ rest.map Prod.fst
      · simp [bump, hk, ih, hw, List.mem_cons, hkw]
      · simp [bump, hk, ih, hw, List.mem_cons, hkw]

theorem lookupCount_bump (acc : List (List Char × Nat)) (w k : List Char) :
    lookupCount (bump acc w) k =
      if k = w then lookupCount acc k + 1 else lookupCount acc k := by
  induction acc with
  | nil =>
    by_cases hk : k = w
    · simp [bump, lookupCount, hk]
    · have : ¬ w = k := fun h => hk h.symm
      simp [bump, lookupCount, hk, this]
  | cons q rest ih =>
    obtain ⟨a, n⟩ := q
    by_cases haw : a = w
    · subst haw
      by_cases hk : a = k
      · subst hk
        simp [bump, lookupCount]
      · have : ¬ k = a := fun h => hk h.symm
        simp [bump, lookupCount, hk, this]
    · by_cases hak : a = k
      · subst hak
        have : ¬ a = w := haw
        have hkw : ¬ a = w := haw
        simp [bump, lookupCount, haw, hkw]
      · simp [bump, lookupCount, haw, hak, ih]

theorem lookupCount_of_mem :
    ∀ {acc : List (List Char × Nat)}, (acc.map Prod.fst).Nodup →
      ∀ {p : List Char × Nat}, p ∈ acc → lookupCount acc p.1 = p.2 := by
  intro acc
  induction acc with
  | nil => intro _ p h; cases h
  | cons q rest ih =>
    intro hnd p hp
    obtain ⟨a, n⟩ := q
    simp only [List.map_cons, List.nodup_cons] at hnd
    cases hp with
    | head => simp [lookupCount]
    | tail _ hmem =>
      have hne : a ≠ p.1 := by
        intro h
        exact hnd.1 (h ▸ List.mem_map_of_mem Prod.fst hmem)
      simp [lookupCount, hne, ih hnd.2 hmem]

theorem wordFreq_concat (ws : List (List Char)) (w : List Char) :
    wordFreq (ws ++ [w]) = bump (wordFreq ws) w := by
  unfold wordFreq
  rw [List.foldl_append]
  rfl

theorem keys_wordFreq_nodup (ws : List (List Char)) :
    ((wordFreq ws).map Prod.fst).Nodup := by
  induction ws using List.reverseRecOn with
  | nil => simp [wordFreq]
  | append_singleton ws w ih =>
    rw [wordFreq_concat, keys_bump]
    by_cases hw : w ∈ (wordFreq ws).map Prod.fst
    · simpa [hw] using ih
    · simp [hw, List.nodup_append, ih, List.disjoint_singleton]

theorem mem_keys_wordFreq :
    ∀ (ws : List (List Char)) (k : List Char),
      k ∈ (wordFreq ws).map Prod.fst ↔ k ∈ ws := by
  intro ws
  induction ws using List.reverseRecOn with
  | nil => intro k; simp [wordFreq]
  | append_singleton ws w ih =>
    intro k
    rw [wordFreq_concat, keys_bump]
    by_cases hw : w ∈ (wordFreq ws).map Prod.fst
    · have hw' : w ∈ ws := (ih w).mp hw
      rw [if_pos hw, ih k]
      simp only [List.mem_append, List.mem_singleton]
      constructor
      · exact Or.inl
      · rintro (h | rfl)
        · exact h
        · exact hw'
    · rw [if_neg hw]
      simp [ih k, ih w]

theorem lookupCount_wordFreq (ws : List (List Char)) :
    ∀ k, lookupCount (wordFreq ws) k = ws.count k := by
  induction ws using List.reverseRecOn with
  | nil => intro k; simp [wordFreq, lookupCount]
  | append_singleton ws w ih =>
    intro k
    rw [wordFreq_concat, lookupCount_bump, List.count_append]
    by_cases hk : k = w
    · subst hk
      simp [ih]
    · have hwk : ¬ w = k := fun h => hk h.symm
      simp [hk, hwk, ih]

theorem count_of_mem_wordFreq {ws : List (List Char)} {p : List Char × Nat}
    (hp : p ∈ wordFreq ws) : p.2 = ws.count p.1 := by
  rw [← lookupCount_wordFreq ws p.1]
  exact (lookupCount_of_mem (keys_wordFreq_nodup ws) hp).symm

theorem insertDesc_perm (p : List Char × Nat) (l : List (List Char × Nat)) :
    (insertDesc p l).Perm (p :: l) := by
  induction l with
  | nil => exact List.Perm.refl _
  | cons q rest ih =>
    by_cases h : q.2 ≤ p.2
    · simp only [insertDesc, h, if_pos]
      exact List.Perm.refl _
    · simp only [insertDesc, h, if_neg]
      exact (ih.cons q).trans (List.Perm.swap' p q (List.Perm.refl rest))

theorem sortDesc_perm (l : List (List Char × Nat)) : (sortDesc l).Perm l := by
  induction l with
  | nil => exact List.Perm.refl _
  | cons x rest ih => exact (insertDesc_perm x (sortDesc rest)).trans (ih.cons x)

theorem insertDesc_pairwise {p : List Char × Nat} {l : List (List Char × Nat)}
    (hl : l.Pairwise (fun a b => b.2 ≤ a.2)) :
    (insertDesc p l).Pairwise (fun a b => b.2 ≤ a.2) := by
  induction l with
  | nil => simp [insertDesc]
  | cons q rest ih =>
    rw [List.pairwise_cons] at hl
    by_cases h : q.2 ≤ p.2
    · simp only [insertDesc, h, if_pos]
      refine List.pairwise_cons.mpr ⟨?_, List.pairwise_cons.mpr hl⟩
      intro x hx
      rcases List.mem_cons.mp hx with rfl | hx'
      · exact h
      · exact le_trans (hl.1 x hx') h
    · simp only [insertDesc, h, if_neg]
      refine List.pairwise_cons.mpr ⟨?_, ih hl.2⟩
      intro x hx
      have hx2 : x ∈ p :: rest := (insertDesc_perm p rest).mem_iff.mp hx
      rcases List.mem_cons.mp hx2 with rfl | hx'
      · omega
      · exact hl.1 x hx'

theorem sortDesc_pairwise (l : List (List Char × Nat)) :
    (sortDesc l).Pairwise (fun a b => b.2 ≤ a.2) := by
  induction l with
  | nil => simp [sortDesc]
  | cons x rest ih => exact insertDesc_pairwise ih

theorem filter_insertDesc (n : Nat) (p : List Char × Nat)
    (l : List (List Char × Nat)) :
    (insertDesc p l).filter (fun q => decide (q.2 = n)) =
      if p.2 = n then p :: l.filter (fun q => decide (q.2 = n))
      else l.filter (fun q => decide (q.2 = n)) := by
  induction l with
  | nil => by_cases h : p.2 = n <;> simp [insertDesc, h]
  | cons q rest ih =>
    by_cases hq : q.2 ≤ p.2
    · rw [show insertDesc p (q :: rest) = p :: q :: rest from by
        simp [insertDesc, hq]]
      by_cases hp : p.2 = n
      · simp [List.filter_cons, hp]
      · simp [List.filter_cons, hp]
    · rw [show insertDesc p (q :: rest) = q :: insertDesc p rest from by
        simp [insertDesc, hq]]
      by_cases hp : p.2 = n
      · have hqn : ¬ (q.2 = n) := by omega
        simp [List.filter_cons, hqn, ih, hp]
      · by_cases hqn : q.2 = n <;> simp [List.filter_cons, hqn, ih, hp]

theorem filter_sortDesc (n : Nat) (l : List (List Char × Nat)) :
    (sortDesc l).filter (fun q => decide (q.2 = n)) =
      l.filter (fun q => decide (q.2 = n)) := by
  induction l with
  | nil => rfl
  | cons x rest ih =>
    show ((insertDesc x (sortDesc rest)).filter _) = _
    rw [filter_insertDesc]
    by_cases hx : x.2 = n <;> simp [hx, ih]

/-- Stability of the descending sort: two entries with the same count keep
their original relative order. -/
theorem pair_sublist_sortDesc {a b : List Char × Nat}
    {l : List (List Char × Nat)}
    (h : [a, b].Sublist (sortDesc l)) (he : a.2 = b.2) : [a, b].Sublist l := by
  have hfa : ([a, b].filter (fun q => decide (q.2 = a.2))) = [a, b] := by
    simp [← he]
  have h1 := h.filter (fun q => decide (q.2 = a.2))
  rw [hfa, filter_sortDesc] at h1
  exact h1.trans (List.filter_sublist l)

theorem pair_sublist_of_map_fst {l : List (List Char × Nat)} {x y : List Char}
    (h : [x, y].Sublist (l.map Prod.fst)) :
    ∃ p q, [p, q].Sublist l ∧ p.1 = x ∧ q.1 = y := by
  induction l with
  | nil => simp at h
  | cons r rest ih =>
    rw [List.map_cons] at h
    rcases List.sublist_cons_iff.mp h with h' | ⟨tl, heq, htl⟩
    · obtain ⟨p, q, hs, hp, hq⟩ := ih h'
      exact ⟨p, q, hs.cons r, hp, hq⟩
    · have hx1 : x = r.1 := by
        have := congrArg (fun t => t.head?) heq
        simpa using this
      have htleq : tl = [y] := by
        have := congrArg (fun t => t.tail) heq
        simpa using this.symm
      subst htleq
      have hy : y ∈ rest.map Prod.fst := List.singleton_sublist.mp htl
      obtain ⟨q, hq, hqy⟩ := List.mem_map.mp hy
      exact ⟨r, q, List.cons_sublist_cons.mpr (List.singleton_sublist.mpr hq),
        hx1.symm, hqy⟩

theorem pair_sublist_concat {a b w : List Char} {l : List (List Char)}
    (h : [a, b].Sublist (l ++ [w])) :
    [a, b].Sublist l ∨ (b = w ∧ a ∈ l) := by
  rcases List.sublist_append_iff.mp h with ⟨l₁, l₂, heq, h₁, h₂⟩
  rcases List.sublist_cons_iff.mp h₂ with h2a | ⟨r, hr, hrs⟩
  · have h0 : l₂ = [] := List.sublist_nil.mp h2a
    subst h0
    left
    rw [List.append_nil] at heq
    exact heq ▸ h₁
  · have hre : r = [] := List.sublist_nil.mp hrs
    subst hre
    subst hr
    cases l₁ with
    | nil => simp at heq
    | cons x xs =>
      rw [List.cons_append] at heq
      injection heq with h1 h2
      cases xs with
      | nil =>
        simp only [List.nil_append] at h2
        injection h2 with h3 h4
        right
        exact ⟨h3, h1 ▸ List.singleton_sublist.mp h₁⟩
      | cons y ys =>
        rw [List.cons_append] at h2
        injection h2 with h3 h4
        simp at h4

/-- The keys of the frequency dict appear in first-seen order. -/
theorem wordFreq_firstSeen :
    ∀ (ws : List (List Char)) (a b : List Char),
      [a, b].Sublist ((wordFreq ws).map Prod.fst) →
      a ∈ ws ∧ b ∈ ws ∧ firstIdx a ws < firstIdx b ws := by
  intro ws
  induction ws using List.reverseRecOn with
  | nil => intro a b h; simp [wordFreq] at h
  | append_singleton ws w ih =>
    intro a b h
    rw [wordFreq_concat, keys_bump] at h
    by_cases hw : w ∈ (wordFreq ws).map Prod.fst
    · rw [if_pos hw] at h
      obtain ⟨ha, hb, hidx⟩ := ih a b h
      refine ⟨List.mem_append_left _ ha, List.mem_append_left _ hb, ?_⟩
      rw [firstIdx_append_left [w] ha, firstIdx_append_left [w] hb]
      exact hidx
    · rw [if_neg hw] at h
      have hwws : w ∉ ws := fun hm => hw ((mem_keys_wordFreq ws w).mpr hm)
      rcases pair_sublist_concat h with h' | ⟨hbw, hmem⟩
      · obtain ⟨ha, hb, hidx⟩ := ih a b h'
        refine ⟨List.mem_append_left _ ha, List.mem_append_left _ hb, ?_⟩
        rw [firstIdx_append_left [w] ha, firstIdx_append_left [w] hb]
        exact hidx
      · have ha : a ∈ ws := (mem_keys_wordFreq ws a).mp hmem
        rw [hbw]
        refine ⟨List.mem_append_left _ ha,
          List.mem_append_right _ (by simp), ?_⟩
        rw [firstIdx_append_left [w] ha, firstIdx_concat_of_not_mem hwws]
        exact firstIdx_lt_length ha

/-- Claim C1: for every extracted text, the derived keyword list has at
most 20 entries, no entry of length 3 or shorter, no duplicates, and is
ordered by descending frequency in the filtered word list (lowercased,
punctuation removed, stop-words removed, minimum-length filtered) with
ties broken by first-seen order; on the text where "alpha" occurs 5 times
and "beta" 3 times and no stop-words occur, the first keyword is "alpha". -/
theorem c1_keywords_spec (text : List Char) :
    (extract_keywords text).length ≤ 20 ∧
    (∀ k ∈ extract_keywords text, 3 < k.length) ∧
    (extract_keywords text).Nodup ∧
    (extract_keywords text).Pairwise
      (fun a b => (filteredWords text).count b ≤ (filteredWords text).count a) ∧
    (∀ a b, [a, b].Sublist (extract_keywords text) →
      (filteredWords text).count a = (filteredWords text).count b →
      firstIdx a (filteredWords text) < firstIdx b (filteredWords text)) ∧
    (extract_keywords
      ("alpha alpha alpha alpha alpha beta beta beta".toList)).head?
      = some ("alpha".toList) := by
  refine ⟨?_, ?_, ?_, ?_, ?_, ?_⟩
  · unfold extract_keywords
    rw [List.length_map]
    exact List.length_take_le _ _
  · intro k hk
    unfold extract_keywords at hk
    obtain ⟨p, hp, rfl⟩ := List.mem_map.mp hk
    have hp1 : p ∈ sortDesc (wordFreq (filteredWords text)) :=
      (List.take_sublist _ _).subset hp
    have hp2 : p ∈ wordFreq (filteredWords text) :=
      (sortDesc_perm _).mem_iff.mp hp1
    have hp3 : p.1 ∈ filteredWords text :=
      (mem_keys_wordFreq _ _).mp (List.mem_map_of_mem Prod.fst hp2)
    have hb := (Bool.and_eq_true _ _).mp (List.mem_filter.mp hp3).2
    exact of_decide_eq_true hb.1
  · unfold extract_keywords
    have h1 : ((wordFreq (filteredWords text)).map Prod.fst).Nodup :=
      keys_wordFreq_nodup _
    have h2 : ((sortDesc (wordFreq (filteredWords text))).map Prod.fst).Nodup :=
      ((sortDesc_perm _).map Prod.fst).nodup_iff.mpr h1
    exact ((List.take_sublist _ _).map Prod.fst).nodup h2
  · unfold extract_keywords
    rw [List.pairwise_map]
    have hs := sortDesc_pairwise (wordFreq (filteredWords text))
    have ht := hs.sublist (List.take_sublist 20 _)
    have hmem : ∀ p ∈ (sortDesc (wordFreq (filteredWords text))).take 20,
        p.2 = (filteredWords text).count p.1 := by
      intro p hp
      exact count_of_mem_wordFreq
        ((sortDesc_perm _).mem_iff.mp ((List.take_sublist _ _).subset hp))
    exact ht.imp_of_mem (fun {p q} hp hq h => by
      rw [← hmem p hp, ← hmem q hq]
      exact h)
  · intro a b hab he
    unfold extract_keywords at hab
    obtain ⟨p, q, hpq, hpa, hqb⟩ := pair_sublist_of_map_fst hab
    have hpq' : [p, q].Sublist (sortDesc (wordFreq (filteredWords text))) :=
      hpq.trans (List.take_sublist _ _)
    have hp2 : p.2 = (filteredWords text).count p.1 :=
      count_of_mem_wordFreq
        ((sortDesc_perm _).mem_iff.mp (hpq'.subset (by simp)))
    have hq2 : q.2 = (filteredWords text).count q.1 :=
      count_of_mem_wordFreq
        ((sortDesc_perm _).mem_iff.mp (hpq'.subset (by simp)))
    have heq : p.2 = q.2 := by rw [hp2, hq2, hpa, hqb, he]
    have hwf : [p, q].Sublist (wordFreq (filteredWords text)) :=
      pair_sublist_sortDesc hpq' heq
    have hmap : [p.1, q.1].Sublist
        ((wordFreq (filteredWords text)).map Prod.fst) := by
      simpa using hwf.map Prod.fst
    have hres := wordFreq_firstSeen (filteredWords text) p.1 q.1 hmap
    rw [hpa, hqb] at hres
    exact hres.2.2
  · rfl

/-- A normalized search result, as built by the parse loop of
`OpenSearchManager.search` and consumed by `RAGEngine`. -/
structure SearchResult where
  id : List Char
  filename : List Char
  type : List Char
  extension : List Char
  score : ℚ
  file_size : Nat
  summary : List Char
  keywords : List (List Char)
  tags : List (List Char)
  highlight : List Char
  indexed_at : List Char
  file_path : List Char
deriving DecidableEq

/-- Python's `round` to an integer: nearest integer, ties to even. -/
def roundHalfEven (q : ℚ) : ℤ :=
  if q - ⌊q⌋ < 1 / 2 then ⌊q⌋
  else if 1 / 2 < q - ⌊q⌋ then ⌊q⌋ + 1
  else if ⌊q⌋ % 2 = 0 then ⌊q⌋ else ⌊q⌋ + 1

/-- Python's `round(x, 2)`. -/
def round2 (q : ℚ) : ℚ := (roundHalfEven (q * 100) : ℚ) / 100

/-- `RAGEngine._calculate_confidence`: `min(top_score / 20.0, 1.0)`,
boosted by 1.2 (capped at 1) when at least 3 results, then `round(_, 2)`. -/
def calculate_confidence (results : List SearchResult) : ℚ :=
  match results with
  | [] => 0
  | top :: rest =>
    let c1 := min (top.score / 20) 1
    let c2 := if 3 ≤ (top :: rest).length then min (c1 * (12 / 10)) 1 else c1
    round2 c2

theorem roundHalfEven_nonneg {q : ℚ} (h : 0 ≤ q) : 0 ≤ roundHalfEven q := by
  have hf : (0 : ℤ) ≤ ⌊q⌋ := Int.floor_nonneg.mpr h
  unfold roundHalfEven
  split
  · exact hf
  · split
    · omega
    · split
      · exact hf
      · omega

theorem roundHalfEven_le_ceil (q : ℚ) : roundHalfEven q ≤ ⌈q⌉ := by
  have hfc : ⌊q⌋ ≤ ⌈q⌉ := Int.floor_le_ceil q
  unfold roundHalfEven
  split
  · exact hfc
  · have hr : ¬ (q - ⌊q⌋ < 1 / 2) := by assumption
    have hpos : (0 : ℚ) < q - ⌊q⌋ := by
      have : (1 : ℚ) / 2 ≤ q - ⌊q⌋ := le_of_not_lt hr
      linarith
    have hlt : (⌊q⌋ : ℚ) < q := by linarith
    have hceil : ⌊q⌋ + 1 ≤ ⌈q⌉ := by
      have := Int.lt_ceil.mpr hlt
      omega
    split
    · exact hceil
    · split
      · exact hfc
      · exact hceil

theorem round2_bounds {q : ℚ} (h0 : 0 ≤ q) (h1 : q ≤ 1) :
    0 ≤ round2 q ∧ round2 q ≤ 1 := by
  have hlo : (0 : ℤ) ≤ roundHalfEven (q * 100) :=
    roundHalfEven_nonneg (by positivity)
  have hhi : roundHalfEven (q * 100) ≤ 100 := by
    have hc : ⌈q * 100⌉ ≤ (100 : ℤ) := by
      apply Int.ceil_le.mpr
      push_cast
      linarith
    exact le_trans (roundHalfEven_le_ceil _) hc
  unfold round2
  constructor
  · apply div_nonneg _ (by norm_num)
    exact_mod_cast hlo
  · rw [div_le_one (by norm_num : (0 : ℚ) < 100)]
    exact_mod_cast hhi

/-- Counterexample to claim C3 as stated: for a single result whose score
is 0.002, the claimed value is `min(0.002 / 20, 1.0) = 0.0001`, but the
code's final `round(confidence, 2)` returns exactly 0. -/
theorem c3_counterexample :
    calculate_confidence [⟨[], [], [], [], 1 / 500, 0, [], [], [], [], [], []⟩]
      = 0 ∧
    ¬ (min ((1 / 500 : ℚ) / 20) 1 = 0) := by
  constructor
  · have hmin : min ((1 / 500 : ℚ) / 20) 1 = 1 / 10000 := by
      rw [min_eq_left (by norm_num)]
      norm_num
    simp only [calculate_confidence, List.length_cons, List.length_nil]
    norm_num [hmin, round2, roundHalfEven]
  · have : min ((1 / 500 : ℚ) / 20) 1 = 1 / 10000 := by
      rw [min_eq_left (by norm_num)]
      norm_num
    rw [this]
    norm_num

/-- Claim C3, amended: for a non-empty result list with non-negative top
score, the confidence equals `min(top_score / 20, 1.0)`, multiplied by 1.2
and capped again at 1.0 when at least 3 results, and then rounded to two
decimal places (the code ends with `round(confidence, 2)`); in all cases
`0 ≤ confidence ≤ 1`; for an empty result list the confidence is 0. -/
theorem c3_confidence_amended (results : List SearchResult)
    (hs : ∀ r ∈ results, 0 ≤ r.score) :
    (results = [] → calculate_confidence results = 0) ∧
    (∀ top rest, results = top :: rest →
      calculate_confidence results =
        round2 (if 3 ≤ results.length
          then min (min (top.score / 20) 1 * (12 / 10)) 1
          else min (top.score / 20) 1)) ∧
    (0 ≤ calculate_confidence results ∧ calculate_confidence results ≤ 1) := by
  refine ⟨?_, ?_, ?_⟩
  · rintro rfl
    rfl
  · rintro top rest rfl
    simp only [calculate_confidence]
  · cases results with
    | nil =>
      simp [calculate_confidence]
    | cons top rest =>
      have hts : 0 ≤ top.score := hs top (List.mem_cons_self _ _)
      have hc1a : 0 ≤ min (top.score / 20) 1 :=
        le_min (by positivity) (by norm_num)
      have hc1b : min (top.score / 20) 1 ≤ 1 := min_le_right _ _
      simp only [calculate_confidence]
      by_cases h3 : 3 ≤ (top :: rest).length
      · rw [if_pos h3]
        have h0 : 0 ≤ min (min (top.score / 20) 1 * (12 / 10)) 1 :=
          le_min (mul_nonneg hc1a (by norm_num)) (by norm_num)
        have h1 : min (min (top.score / 20) 1 * (12 / 10)) 1 ≤ 1 :=
          min_le_right _ _
        exact round2_bounds h0 h1
      · rw [if_neg h3]
        exact round2_bounds hc1a hc1b

/-- Witness for C3 at a single result of score 10: the hypotheses hold and
the computed confidence is within bounds. -/
theorem c3_witness :
    0 ≤ calculate_confidence [⟨[], [], [], [], 10, 0, [], [], [], [], [], []⟩] ∧
    calculate_confidence [⟨[], [], [], [], 10, 0, [], [], [], [], [], []⟩] ≤ 1 :=
  (c3_confidence_amended _ (by
    intro r hr
    rw [List.mem_singleton] at hr
    subst hr
    norm_num)).2.2

inductive SortOrder
  | asc
  | desc
deriving DecidableEq

/-- Highlight configuration for one field, as in the `highlight.fields`
entries of the search body built by `OpenSearchManager.search`. -/
structure HighlightField where
  name : List Char
  fragment_size : Option Nat
  number_of_fragments : Option Nat
  no_match_size : Option Nat
deriving DecidableEq

/-- A `{'term': {field: value}}` filter clause. -/
structure TermFilter where
  field : List Char
  value : List Char
deriving DecidableEq

/-- The weighted fields of the `multi_match` clause:
content^1, filename^3, summary^2, keywords^2, tags^2. -/
def multiMatchFields : List (List Char × Nat) :=
  [("content".toList, 1), ("filename".toList, 3), ("summary".toList, 2),
   ("keywords".toList, 2), ("tags".toList, 2)]

/-- The query clause of `OpenSearchManager.search`: `match_all`, or the
boosted `multi_match` (best_fields, AUTO fuzziness, inside a `bool.should`
with `minimum_should_match: 1`), optionally wrapped in a `bool` with term
filters. -/
inductive QueryClause
  | matchAll
  | boostedMultiMatch (query : List Char) (fields : List (List Char × Nat))
  | withFilters (base : QueryClause) (filters : List TermFilter)
deriving DecidableEq

/-- The request body assembled by `OpenSearchManager.search`. -/
structure SearchBody where
  query : QueryClause
  highlightFields : List HighlightField
  preTag : List Char
  postTag : List Char
  requireFieldMatch : Bool
  size : Nat
  sort : List (List Char × SortOrder)
deriving DecidableEq

/-- The initial `highlight.fields`: summary (200 × 2), filename, content
(150 × 3, `no_match_size` 200). -/
def fullHighlightFields : List HighlightField :=
  [⟨"summary".toList, some 200, some 2, none⟩,
   ⟨"filename".toList, none, none, none⟩,
   ⟨"content".toList, some 150, some 3, some 200⟩]

/-- The fallback `highlight.fields` used on retry: summary and filename
only, content highlighting removed. -/
def reducedHighlightFields : List HighlightField :=
  [⟨"summary".toList, some 200, some 2, none⟩,
   ⟨"filename".toList, none, none, none⟩]

/-- `not query or query.strip() == '*'`. -/
def isMatchAllQuery (query : List Char) : Bool :=
  query.isEmpty || (pyStrip query == ['*'])

/-- The clause before filters are applied. -/
def baseQueryClause (query : List Char) : QueryClause :=
  if isMatchAllQuery query then .matchAll
  else .boostedMultiMatch query multiMatchFields

/-- The final query clause: filters, when present, wrap the base clause in
a `bool` with `must` and `filter`. -/
def buildQueryClause (query : List Char) (filters : List TermFilter) :
    QueryClause :=
  if filters.isEmpty then baseQueryClause query
  else .withFilters (baseQueryClause query) filters

def buildSearchBody (query : List Char) (size : Nat)
    (filters : List TermFilter) : SearchBody :=
  { query := buildQueryClause query filters
    highlightFields := fullHighlightFields
    preTag := "<mark>".toList
    postTag := "</mark>".toList
    requireFieldMatch := false
    size := size
    sort := [("indexed_at".toList, SortOrder.desc)] }

/-- A backend failure as the client surfaces it: a `RequestError` whose
text may mention `max_analyzed_offset`, or any other exception. -/
inductive BackendError
  | requestError (mentionsMaxOffset : Bool)
  | otherError
deriving DecidableEq

def isMaxOffsetError : BackendError → Bool
  | .requestError m => m
  | .otherError => false

/-- The `highlight` object of a raw hit: fragment lists keyed by field
(`none` models an absent key). -/
structure HitHighlight where
  content : Option (List (List Char))
  summary : Option (List (List Char))
deriving DecidableEq

structure HitSource where
  filename : List Char
  type : List Char
  extension : List Char
  file_size : Nat
  summary : List Char
  keywords : List (List Char)
  tags : List (List Char)
  indexed_at : List Char
  file_path : List Char
deriving DecidableEq

structure RawHit where
  id : List Char
  source : HitSource
  highlight : Option HitHighlight
  score : Option ℚ
deriving DecidableEq

structure SearchResponse where
  total : Nat
  hits : List RawHit
deriving DecidableEq

/-- `' ... '.join(fragments)`. -/
def joinFrags (frags : List (List Char)) : List Char :=
  List.intercalate (' ' :: '.' :: '.' :: '.' :: ' ' :: []) frags

/-- The `highlight_text` computed for one hit: the joined content
fragments when the content key is present, else the first summary
fragment, else the empty string; `none` models the `IndexError` raised by
`hit['highlight']['summary'][0]` on an empty fragment list. -/
def highlightText (hit : RawHit) : Option (List Char) :=
  match hit.highlight with
  | none => some []
  | some hl =>
    match hl.content with
    | some frags => some (joinFrags frags)
    | none =>
      match hl.summary with
      | some frags => frags.head?
      | none => some []

/-- One iteration of the result-parsing loop of `OpenSearchManager.search`:
score defaults to 1.0 when absent, and the final highlight falls back to
the first 300 characters of the stored summary when `highlight_text` is
empty (`highlight_text or source.get('summary', '')[:300]`). -/
def parseHit (hit : RawHit) : Option SearchResult :=
  match highlightText hit with
  | none => none
  | some htext =>
    some ⟨hit.id, hit.source.filename, hit.source.type, hit.source.extension,
      hit.score.getD 1, hit.source.file_size, hit.source.summary,
      hit.source.keywords, hit.source.tags,
      if htext.isEmpty then hit.source.summary.take 300 else htext,
      hit.source.indexed_at, hit.source.file_path⟩

def parseHits : List RawHit → Option (List SearchResult)
  | [] => some []
  | h :: rest =>
    match parseHit h, parseHits rest with
    | some r, some rs => some (r :: rs)
    | _, _ => none

inductive SearchOutcome
  | success (total : Nat) (results : List SearchResult)
  | failure
deriving DecidableEq

def parseOutcome (resp : SearchResponse) : SearchOutcome :=
  match parseHits resp.hits with
  | some rs => .success resp.total rs
  | none => .failure

/-- `OpenSearchManager.search`: build the body, call the backend; on a
`RequestError` mentioning `max_analyzed_offset` retry once with content
highlighting removed; surface any other failure (the outer `except`
returns a failed result).  The second component records the request bodies
sent to the backend, in order. -/
def opensearch_search
    (backend : SearchBody → Except BackendError SearchResponse)
    (query : List Char) (size : Nat) (filters : List TermFilter) :
    SearchOutcome × List SearchBody :=
  let body := buildSearchBody query size filters
  match backend body with
  | .ok resp => (parseOutcome resp, [body])
  | .error e =>
    if isMaxOffsetError e then
      let body2 := { body with highlightFields := reducedHighlightFields }
      match backend body2 with
      | .ok resp => (parseOutcome resp, [body, body2])
      | .error _ => (.failure, [body, body2])
    else (.failure, [body])

/-- Claim C4: when the first attempt fails with the backend's
highlighting-size limit (`max_analyzed_offset` in a `RequestError`), the
search retries exactly once with the identical body in which only the
highlight fields are reduced to summary and filename, and returns the
retry's parsed results; failures of any other kind are not retried. -/
theorem c4_highlight_retry
    (backend : SearchBody → Except BackendError SearchResponse)
    (query : List Char) (size : Nat) (filters : List TermFilter) :
    (∀ e resp, backend (buildSearchBody query size filters) = .error e →
      isMaxOffsetError e = true →
      backend { buildSearchBody query size filters with
        highlightFields := reducedHighlightFields } = .ok resp →
      opensearch_search backend query size filters =
        (parseOutcome resp,
         [buildSearchBody query size filters,
          { buildSearchBody query size filters with
            highlightFields := reducedHighlightFields }])) ∧
    (∀ e e2, backend (buildSearchBody query size filters) = .error e →
      isMaxOffsetError e = true →
      backend { buildSearchBody query size filters with
        highlightFields := reducedHighlightFields } = .error e2 →
      opensearch_search backend query size filters =
        (.failure,
         [buildSearchBody query size filters,
          { buildSearchBody query size filters with
            highlightFields := reducedHighlightFields }])) ∧
    (∀ e, backend (buildSearchBody query size filters) = .error e →
      isMaxOffsetError e = false →
      opensearch_search backend query size filters =
        (.failure, [buildSearchBody query size filters])) ∧
    reducedHighlightFields.map HighlightField.name =
      [('s' :: 'u' :: 'm' :: 'm' :: 'a' :: 'r' :: 'y' :: []),
       ('f' :: 'i' :: 'l' :: 'e' :: 'n' :: 'a' :: 'm' :: 'e' :: [])] ∧
    ({ buildSearchBody query size filters with
       highlightFields := reducedHighlightFields }).query =
      (buildSearchBody query size filters).query ∧
    ({ buildSearchBody query size filters with
       highlightFields := reducedHighlightFields }).sort =
      (buildSearchBody query size filters).sort ∧
    ({ buildSearchBody query size filters with
       highlightFields := reducedHighlightFields }).size = size := by
  refine ⟨?_, ?_, ?_, by decide, rfl, rfl, rfl⟩
  · intro e resp he hmax hre
    simp [opensearch_search, he, hmax, hre]
  · intro e e2 he hmax hre
    simp [opensearch_search, he, hmax, hre]
  · intro e he hmax
    simp [opensearch_search, he, hmax]

/-- A backend that fails with the highlighting-size limit exactly when
content highlighting (the third highlight field) is requested. -/
def retryDemoBackend : SearchBody → Except BackendError SearchResponse :=
  fun b =>
    if b.highlightFields.length = 3 then .error (.requestError true)
    else .ok ⟨0, []⟩

/-- Witness for C4: with `retryDemoBackend` the first call fails on the
size limit, and the search returns the retry's (empty) results after
sending exactly the two bodies. -/
theorem c4_witness :
    opensearch_search retryDemoBackend [] 10 [] =
      (SearchOutcome.success 0 [],
       [buildSearchBody [] 10 [],
        { buildSearchBody [] 10 [] with
          highlightFields := reducedHighlightFields }]) :=
  (c4_highlight_retry retryDemoBackend [] 10 []).1
    (.requestError true) ⟨0, []⟩ rfl rfl rfl

/-- Claim C5: an empty query or the literal wildcard token produces a
match-all clause, and the request body always sorts by `indexed_at`
descending (never by relevance score), for every query and filter set. -/
theorem c5_match_all_and_sort (query : List Char) (size : Nat)
    (filters : List TermFilter) :
    (buildSearchBody query size filters).sort
      = [(('i' :: 'n' :: 'd' :: 'e' :: 'x' :: 'e' :: 'd' :: '_' :: 'a' :: 't' :: []),
          SortOrder.desc)] ∧
    ((query = [] ∨ pyStrip query = ['*']) →
      baseQueryClause query = .matchAll) ∧
    (filters = [] →
      (buildSearchBody query size filters).query = baseQueryClause query) ∧
    (filters ≠ [] →
      (buildSearchBody query size filters).query =
        .withFilters (baseQueryClause query) filters) := by
  refine ⟨rfl, ?_, ?_, ?_⟩
  · intro h
    unfold baseQueryClause isMatchAllQuery
    rcases h with rfl | h
    · simp
    · simp [h]
  · intro h
    subst h
    simp [buildSearchBody, buildQueryClause]
  · intro h
    have : ¬ filters.isEmpty := by
      cases filters with
      | nil => exact absurd rfl h
      | cons a l => simp
    simp [buildSearchBody, buildQueryClause, this]

/-- Witness for C5 at the whitespace-padded wildcard query " *". -/
theorem c5_witness :
    (buildSearchBody (' ' :: '*' :: []) 5 []).sort
      = [(('i' :: 'n' :: 'd' :: 'e' :: 'x' :: 'e' :: 'd' :: '_' :: 'a' :: 't' :: []),
          SortOrder.desc)] ∧
    baseQueryClause (' ' :: '*' :: []) = .matchAll :=
  ⟨(c5_match_all_and_sort (' ' :: '*' :: []) 5 []).1,
   (c5_match_all_and_sort (' ' :: '*' :: []) 5 []).2.1 (Or.inr (by decide))⟩

/-- Claim C6: a parsed hit's highlight equals the (joined) content
highlight when a non-empty one is present, else the first summary
highlight when a non-empty one is present, else the first 300 characters
of the stored summary; and the score defaults to 1.0 whenever the backend
omits it. -/
theorem c6_result_normalization (hit : RawHit) :
    (∀ hl frags, hit.highlight = some hl → hl.content = some frags →
      joinFrags frags ≠ [] →
      ∃ r, parseHit hit = some r ∧ r.highlight = joinFrags frags) ∧
    (∀ hl s rest, hit.highlight = some hl → hl.content = none →
      hl.summary = some (s :: rest) → s ≠ [] →
      ∃ r, parseHit hit = some r ∧ r.highlight = s) ∧
    (hit.highlight = none →
      ∃ r, parseHit hit = some r ∧
        r.highlight = hit.source.summary.take 300) ∧
    (∀ hl, hit.highlight = some hl → hl.content = none → hl.summary = none →
      ∃ r, parseHit hit = some r ∧
        r.highlight = hit.source.summary.take 300) ∧
    (∀ r, parseHit hit = some r → hit.score = none → r.score = 1) := by
  refine ⟨?_, ?_, ?_, ?_, ?_⟩
  · intro hl frags hh hc hne
    have ht : highlightText hit = some (joinFrags frags) := by
      simp [highlightText, hh, hc]
    have hemp : (joinFrags frags).isEmpty = false := by
      cases hj : joinFrags frags with
      | nil => exact absurd hj hne
      | cons x xs => simp
    refine ⟨⟨hit.id, hit.source.filename, hit.source.type,
      hit.source.extension, hit.score.getD 1, hit.source.file_size,
      hit.source.summary, hit.source.keywords, hit.source.tags,
      joinFrags frags, hit.source.indexed_at, hit.source.file_path⟩, ?_, rfl⟩
    simp [parseHit, ht, hemp]
  · intro hl s rest hh hc hs hne
    have ht : highlightText hit = some s := by
      simp [highlightText, hh, hc, hs]
    have hemp : s.isEmpty = false := by
      cases hj : s with
      | nil => exact absurd hj hne
      | cons x xs => simp
    refine ⟨⟨hit.id, hit.source.filename, hit.source.type,
      hit.source.extension, hit.score.getD 1, hit.source.file_size,
      hit.source.summary, hit.source.keywords, hit.source.tags,
      s, hit.source.indexed_at, hit.source.file_path⟩, ?_, rfl⟩
    simp [parseHit, ht, hemp]
  · intro hh
    have ht : highlightText hit = some [] := by
      simp [highlightText, hh]
    refine ⟨⟨hit.id, hit.source.filename, hit.source.type,
      hit.source.extension, hit.score.getD 1, hit.source.file_size,
      hit.source.summary, hit.source.keywords, hit.source.tags,
      hit.source.summary.take 300, hit.source.indexed_at,
      hit.source.file_path⟩, ?_, rfl⟩
    simp [parseHit, ht]
  · intro hl hh hc hs
    have ht : highlightText hit = some [] := by
      simp [highlightText, hh, hc, hs]
    refine ⟨⟨hit.id, hit.source.filename, hit.source.type,
      hit.source.extension, hit.score.getD 1, hit.source.file_size,
      hit.source.summary, hit.source.keywords, hit.source.tags,
      hit.source.summary.take 300, hit.source.indexed_at,
      hit.source.file_path⟩, ?_, rfl⟩
    simp [parseHit, ht]
  · intro r hr hsc
    unfold parseHit at hr
    cases ht : highlightText hit with
    | none => rw [ht] at hr; exact absurd hr (by simp)
    | some htext =>
      rw [ht] at hr
      have := Option.some.inj hr
      rw [← this, hsc]
      rfl

/-- Witness for C6 at a hit whose content highlight is the single
fragment "ab" and whose score is absent. -/
theorem c6_witness :
    ∃ r, parseHit ⟨('1' :: []), ⟨[], [], [], 0, [], [], [], [], []⟩,
        some ⟨some [('a' :: 'b' :: [])], none⟩, none⟩ = some r ∧
      r.highlight = joinFrags [('a' :: 'b' :: [])] :=
  (c6_result_normalization _).1 ⟨some [('a' :: 'b' :: [])], none⟩
    [('a' :: 'b' :: [])] rfl rfl (by decide)

/-- The keyword pool of `RAGEngine._generate_suggestions`: the keywords of
the top 5 results, concatenated in order (`all_keywords.extend(...)`). -/
def allTopKeywords (results : List SearchResult) : List (List Char) :=
  (results.take 5).foldl (fun acc r => acc ++ r.keywords) []

/-- First-seen deduplication, standing in for Python's `set(...)` of
document types (the set iterates in unspecified order; the claim does not
depend on the order, only on membership). -/
def firstSeenTypes (results : List SearchResult) : List (List Char) :=
  (results.map SearchResult.type).foldl
    (fun acc t => if t ∈ acc then acc else acc ++ [t]) []

/-- `pat` is a prefix of `hay` (character comparison). -/
def startsWithL : List Char → List Char → Bool
  | [], _ => true
  | _ :: _, [] => false
  | p :: ps, h :: hs => p = h && startsWithL ps hs

/-- Python's substring test `pat in hay`. -/
def isSubstr (pat : List Char) : List Char → Bool
  | [] => pat.isEmpty
  | c :: rest => startsWithL pat (c :: rest) || isSubstr pat rest

/-- `RAGEngine._generate_suggestions`: the top-5-by-frequency keywords of
the top 5 results (same dict + stable descending sort pattern as the
parser), cut to 3, each skipped when its lowercase form is a substring of
the lowercase query, prefixed "Cerca anche: "; then "Filtra per: " for
each document type occurring in more than one result; the whole list cut
to 5. -/
def generate_suggestions (query : List Char) (results : List SearchResult) :
    List (List Char) :=
  let top_keywords := (sortDesc (wordFreq (allTopKeywords results))).take 5
  let kwSuggs := (top_keywords.take 3).filterMap (fun p =>
    if isSubstr (toLowerStr p.1) (toLowerStr query)
    then none
    else some (("Cerca anche: ".toList) ++ p.1))
  let typeSuggs := (firstSeenTypes results).filterMap (fun t =>
    if 1 < (results.filter (fun r => decide (r.type = t))).length
    then some (("Filtra per: ".toList) ++ t)
    else none)
  (kwSuggs ++ typeSuggs).take 5

theorem filterMap_if_eq_map_filter {α β : Type} (c : α → Bool) (f : α → β)
    (l : List α) :
    l.filterMap (fun a => if c a then none else some (f a)) =
      (l.filter (fun a => !(c a))).map f := by
  induction l with
  | nil => rfl
  | cons x xs ih =>
    by_cases hx : c x = true
    · simp [List.filterMap_cons, List.filter_cons, hx, ih]
    · simp [List.filterMap_cons, List.filter_cons, hx, ih]

theorem pairwise_count_mapFst_sortDesc (ws : List (List Char)) :
    ((sortDesc (wordFreq ws)).map Prod.fst).Pairwise
      (fun a b => ws.count b ≤ ws.count a) := by
  rw [List.pairwise_map]
  have hs := sortDesc_pairwise (wordFreq ws)
  exact hs.imp_of_mem (fun {p q} hp hq h => by
    rw [← count_of_mem_wordFreq ((sortDesc_perm _).mem_iff.mp hp),
        ← count_of_mem_wordFreq ((sortDesc_perm _).mem_iff.mp hq)]
    exact h)

theorem tie_firstSeen_mapFst_sortDesc (ws : List (List Char)) :
    ∀ a b, [a, b].Sublist ((sortDesc (wordFreq ws)).map Prod.fst) →
      ws.count a = ws.count b → firstIdx a ws < firstIdx b ws := by
  intro a b hab he
  obtain ⟨p, q, hpq, hpa, hqb⟩ := pair_sublist_of_map_fst hab
  have hp2 : p.2 = ws.count p.1 :=
    count_of_mem_wordFreq ((sortDesc_perm _).mem_iff.mp (hpq.subset (by simp)))
  have hq2 : q.2 = ws.count q.1 :=
    count_of_mem_wordFreq ((sortDesc_perm _).mem_iff.mp (hpq.subset (by simp)))
  have heq : p.2 = q.2 := by rw [hp2, hq2, hpa, hqb, he]
  have hwf := pair_sublist_sortDesc hpq heq
  have hres := wordFreq_firstSeen ws p.1 q.1 (by simpa using hwf.map Prod.fst)
  rw [hpa, hqb] at hres
  exact hres.2.2

theorem mem_firstSeen_of_mem {x : List Char} :
    ∀ (l : List (List Char)) (acc : List (List Char)),
      x ∈ acc ∨ x ∈ l →
      x ∈ l.foldl (fun acc t => if t ∈ acc then acc else acc ++ [t]) acc := by
  intro l
  induction l with
  | nil =>
    intro acc h
    rcases h with h | h
    · exact h
    · cases h
  | cons t rest ih =>
    intro acc h
    show x ∈ rest.foldl _ (if t ∈ acc then acc else acc ++ [t])
    apply ih
    rcases h with h | h
    · left
      by_cases hc : t ∈ acc
      · simp only [hc, if_pos]
        exact h
      · simp only [hc, if_neg]
        exact List.mem_append_left _ h
    · rcases List.mem_cons.mp h with rfl | h'
      · left
        by_cases hc : x ∈ acc
        · simp [hc]
        · simp only [hc, if_neg]
          exact List.mem_append_right _ (by simp)
      · right
        exact h'

/-- Claim C7: the suggestions are the most frequent keywords across the
top 5 results (ties by first-seen order), excluding keywords already a
case-insensitive substring of the query, capped at 3 keyword suggestions,
plus one "Filtra per:" suggestion per document type occurring in more
than one result, with the total capped at 5. -/
theorem c7_suggestions (query : List Char) (results : List SearchResult) :
    (generate_suggestions query results).length ≤ 5 ∧
    ∃ kws ts,
      generate_suggestions query results =
        ((kws.map (fun kw => ("Cerca anche: ".toList) ++ kw)) ++ ts).take 5 ∧
      kws.length ≤ 3 ∧
      kws.Sublist
        (((sortDesc (wordFreq (allTopKeywords results))).take 3).map Prod.fst) ∧
      (∀ kw ∈ kws, isSubstr (toLowerStr kw) (toLowerStr query) = false) ∧
      kws.Pairwise (fun a b =>
        (allTopKeywords results).count b ≤ (allTopKeywords results).count a) ∧
      (∀ a b, [a, b].Sublist kws →
        (allTopKeywords results).count a = (allTopKeywords results).count b →
        firstIdx a (allTopKeywords results) <
          firstIdx b (allTopKeywords results)) ∧
      (∀ s ∈ ts, ∃ t, s = ("Filtra per: ".toList) ++ t ∧
        1 < (results.filter (fun r => decide (r.type = t))).length) ∧
      (∀ t, t ∈ results.map SearchResult.type →
        1 < (results.filter (fun r => decide (r.type = t))).length →
        (("Filtra per: ".toList) ++ t) ∈ ts) := by
  have hsub : (((((sortDesc (wordFreq (allTopKeywords results))).take 3).filter
      (fun p => !(isSubstr (toLowerStr p.1) (toLowerStr query)))).map
        Prod.fst)).Sublist
      ((sortDesc (wordFreq (allTopKeywords results))).map Prod.fst) :=
    ((List.filter_sublist _).trans (List.take_sublist _ _)).map Prod.fst
  constructor
  · exact List.length_take_le _ _
  · refine ⟨((((sortDesc (wordFreq (allTopKeywords results))).take 3).filter
        (fun p => !(isSubstr (toLowerStr p.1) (toLowerStr query)))).map
          Prod.fst),
      ((firstSeenTypes results).filterMap (fun t =>
        if 1 < (results.filter (fun r => decide (r.type = t))).length
        then some (("Filtra per: ".toList) ++ t)
        else none)),
      ?_, ?_, ?_, ?_, ?_, ?_, ?_, ?_⟩
    · simp only [generate_suggestions]
      congr 2
      rw [List.take_take]
      norm_num
      exact filterMap_if_eq_map_filter
        (fun (p : List Char × Nat) => isSubstr (toLowerStr p.1) (toLowerStr query))
        (fun (p : List Char × Nat) => ("Cerca anche: ".toList) ++ p.1) _
    · rw [List.length_map]
      exact le_trans (List.length_filter_le _ _) (List.length_take_le _ _)
    · exact (List.filter_sublist _).map Prod.fst
    · intro kw hkw
      obtain ⟨p, hp, rfl⟩ := List.mem_map.mp hkw
      have := (List.mem_filter.mp hp).2
      simpa using this
    · exact (pairwise_count_mapFst_sortDesc _).sublist hsub
    · intro a b hab he
      exact tie_firstSeen_mapFst_sortDesc _ a b (hab.trans hsub) he
    · intro s hs
      obtain ⟨t, htmem, hteq⟩ := List.mem_filterMap.mp hs
      by_cases hcond : 1 < (results.filter (fun r => decide (r.type = t))).length
      · rw [if_pos hcond] at hteq
        exact ⟨t, (Option.some.inj hteq).symm, hcond⟩
      · rw [if_neg hcond] at hteq
        exact absurd hteq (by simp)
    · intro t htm hcount
      apply List.mem_filterMap.mpr
      refine ⟨t, ?_, ?_⟩
      · exact mem_firstSeen_of_mem (results.map SearchResult.type) [] (Or.inr htm)
      · rw [if_pos hcount]

/-- Witness for C7 at the empty query and empty result list. -/
theorem c7_witness : (generate_suggestions [] []).length ≤ 5 :=
  (c7_suggestions [] []).1

/-- `DocumentParser.SUPPORTED_EXTENSIONS` (the keys). -/
def SUPPORTED_EXTENSIONS : List (List Char) :=
  [".pdf", ".doc", ".docx", ".xls", ".xlsx", ".html", ".htm", ".md",
   ".txt", ".csv", ".msg", ".pst"].map String.toList

/-- `pathlib.Path(name).suffix`: from the last dot, empty when there is no
dot, the dot is the first character, or the dot is the last character. -/
def pathSuffix (name : List Char) : List Char :=
  match rfindIdx '.' name with
  | none => []
  | some i => if 0 < i ∧ i < name.length - 1 then name.drop i else []

/-- Outcome of an external call (`parser.parse`,
`opensearch.index_document`): success, or a failure with its message. -/
inductive CallOutcome
  | ok
  | err (msg : List Char)
deriving DecidableEq

/-- One incoming file of a batch upload: the raw client-supplied name, the
`secure_filename` result (the sanitizer is the external werkzeug helper,
so its output is part of the input), and the outcomes of the parse and
index calls (external effects). -/
structure FileSpec where
  rawName : List Char
  secured : List Char
  parseRes : CallOutcome
  indexRes : CallOutcome
deriving DecidableEq

/-- The tally built by `api_upload_directory`. -/
structure BatchTally where
  uploaded : Nat
  failed : Nat
  documents : List (List Char)
  errors : List (List Char × List Char)
deriving DecidableEq

/-- The body of the per-file loop of `api_upload_directory`: invalid name,
unsupported extension, parse failure and index failure each add one error
entry and continue; success appends the document. -/
def processFile (acc : BatchTally) (f : FileSpec) : BatchTally :=
  if f.secured.isEmpty then
    { acc with
      failed := acc.failed + 1
      errors := acc.errors ++ [(f.rawName, "Invalid filename".toList)] }
  else
    let ext := toLowerStr (pathSuffix f.secured)
    if ext ∉ SUPPORTED_EXTENSIONS then
      { acc with
        failed := acc.failed + 1
        errors := acc.errors ++
          [(f.secured, ("Unsupported file type: ".toList) ++ ext)] }
    else
      match f.parseRes with
      | .err e =>
        { acc with
          failed := acc.failed + 1
          errors := acc.errors ++ [(f.secured, e)] }
      | .ok =>
        match f.indexRes with
        | .err e =>
          { acc with
            failed := acc.failed + 1
            errors := acc.errors ++ [(f.secured, e)] }
        | .ok =>
          { acc with
            uploaded := acc.uploaded + 1
            documents := acc.documents ++ [f.secured] }

/-- The loop of `api_upload_directory` over all files of the request. -/
def api_upload_directory (files : List FileSpec) : BatchTally :=
  files.foldl processFile ⟨0, 0, [], []⟩

/-- A file is counted as uploaded exactly when its name survives
sanitizing, its extension is supported, and parse and index succeed. -/
def fileSucceeds (f : FileSpec) : Bool :=
  !f.secured.isEmpty &&
  decide (toLowerStr (pathSuffix f.secured) ∈ SUPPORTED_EXTENSIONS) &&
  (match f.parseRes with | .ok => true | .err _ => false) &&
  (match f.indexRes with | .ok => true | .err _ => false)

theorem processFile_counts (acc : BatchTally) (f : FileSpec) :
    (processFile acc f).uploaded
        = acc.uploaded + (if fileSucceeds f then 1 else 0) ∧
    (processFile acc f).failed
        = acc.failed + (if fileSucceeds f then 0 else 1) := by
  by_cases h1 : f.secured.isEmpty
  · simp [processFile, fileSucceeds, h1]
  · by_cases h2 : toLowerStr (pathSuffix f.secured) ∈ SUPPORTED_EXTENSIONS
    · cases hp : f.parseRes with
      | err e => simp [processFile, fileSucceeds, h1, h2, hp]
      | ok =>
        cases hi : f.indexRes with
        | err e => simp [processFile, fileSucceeds, h1, h2, hp, hi]
        | ok => simp [processFile, fileSucceeds, h1, h2, hp, hi]
    · simp [processFile, fileSucceeds, h1, h2]

theorem upload_counts (files : List FileSpec) :
    ∀ acc : BatchTally,
      (files.foldl processFile acc).uploaded =
        acc.uploaded + (files.filter fileSucceeds).length ∧
      (files.foldl processFile acc).failed =
        acc.failed + (files.filter (fun f => !(fileSucceeds f))).length := by
  induction files with
  | nil => intro acc; simp
  | cons f rest ih =>
    intro acc
    obtain ⟨hu, hf⟩ := ih (processFile acc f)
    obtain ⟨hcu, hcf⟩ := processFile_counts acc f
    constructor
    · show (rest.foldl processFile (processFile acc f)).uploaded = _
      rw [hu, hcu, List.filter_cons]
      by_cases hs : fileSucceeds f
      all_goals simp [hs]
      all_goals omega
    · show (rest.foldl processFile (processFile acc f)).failed = _
      rw [hf, hcf, List.filter_cons]
      by_cases hs : fileSucceeds f
      all_goals simp [hs]
      all_goals omega

/-- Claim C8: batch ingestion processes each file independently;
per-file failures never abort the batch (every file is tallied as
uploaded or failed, and the tally depends only on each file's own
outcome); batch-ingesting 3 files where exactly one has an unsupported
extension yields uploaded = 2, failed = 1, and the failed entry's error
names the unsupported extension. -/
theorem c8_batch_ingestion (files : List FileSpec) :
    (api_upload_directory files).uploaded
        + (api_upload_directory files).failed = files.length ∧
    (api_upload_directory files).uploaded
        = (files.filter fileSucceeds).length ∧
    (api_upload_directory files).failed
        = (files.filter (fun f => !(fileSucceeds f))).length ∧
    (api_upload_directory
        [⟨"a.txt".toList, "a.txt".toList, .ok, .ok⟩,
         ⟨"b.pdf".toList, "b.pdf".toList, .ok, .ok⟩,
         ⟨"c.xyz".toList, "c.xyz".toList, .ok, .ok⟩]).uploaded = 2 ∧
    (api_upload_directory
        [⟨"a.txt".toList, "a.txt".toList, .ok, .ok⟩,
         ⟨"b.pdf".toList, "b.pdf".toList, .ok, .ok⟩,
         ⟨"c.xyz".toList, "c.xyz".toList, .ok, .ok⟩]).failed = 1 ∧
    (api_upload_directory
        [⟨"a.txt".toList, "a.txt".toList, .ok, .ok⟩,
         ⟨"b.pdf".toList, "b.pdf".toList, .ok, .ok⟩,
         ⟨"c.xyz".toList, "c.xyz".toList, .ok, .ok⟩]).errors
      = [("c.xyz".toList, "Unsupported file type: .xyz".toList)] := by
  obtain ⟨hu, hf⟩ := upload_counts files ⟨0, 0, [], []⟩
  have hsplit : (files.filter fileSucceeds).length +
      (files.filter (fun f => !(fileSucceeds f))).length = files.length := by
    clear hu hf
    induction files with
    | nil => rfl
    | cons f rest ih =>
      rw [List.filter_cons, List.filter_cons]
      by_cases hs : fileSucceeds f
      all_goals simp [hs]
      all_goals omega
  refine ⟨?_, ?_, ?_, by decide, by decide, by decide⟩
  · show (files.foldl processFile ⟨0, 0, [], []⟩).uploaded
        + (files.foldl processFile ⟨0, 0, [], []⟩).failed = files.length
    rw [hu, hf]
    simpa using hsplit
  · simpa [api_upload_directory] using hu
  · simpa [api_upload_directory] using hf

/-- Witness for C8 at a single valid text file. -/
theorem c8_witness :
    (api_upload_directory [⟨"a.txt".toList, "a.txt".toList, .ok, .ok⟩]).uploaded
      + (api_upload_directory
          [⟨"a.txt".toList, "a.txt".toList, .ok, .ok⟩]).failed = 1 :=
  (c8_batch_ingestion [⟨"a.txt".toList, "a.txt".toList, .ok, .ok⟩]).1

inductive FieldType
  | text
  | keyword
  | date
  | long
  | object
deriving DecidableEq

/-- One field of the mapping: its type, its analyzer (when one is set),
and whether it carries an exact-match `keyword` sub-field. -/
structure FieldMapping where
  ftype : FieldType
  analyzer : Option (List Char)
  keywordSub : Bool
deriving DecidableEq

/-- The `mappings.properties` object of `OpenSearchManager.create_index`,
verbatim. -/
def createIndexMapping : List (List Char × FieldMapping) :=
  [("filename".toList, ⟨.text, none, true⟩),
   ("extension".toList, ⟨.keyword, none, false⟩),
   ("type".toList, ⟨.keyword, none, false⟩),
   ("content".toList, ⟨.text, some "document_analyzer".toList, false⟩),
   ("summary".toList, ⟨.text, some "document_analyzer".toList, false⟩),
   ("keywords".toList, ⟨.keyword, none, false⟩),
   ("tags".toList, ⟨.keyword, none, false⟩),
   ("metadata".toList, ⟨.object, none, false⟩),
   ("indexed_at".toList, ⟨.date, none, false⟩),
   ("file_size".toList, ⟨.long, none, false⟩),
   ("file_path".toList, ⟨.text, none, true⟩)]

/-- The filter chain of the custom `document_analyzer` in the index
settings: lowercasing, diacritic folding, stop-word removal, stemming. -/
def documentAnalyzerFilters : List (List Char) :=
  ["lowercase", "asciifolding", "stop", "snowball"].map String.toList

/-- `index.highlight.max_analyzed_offset` from the index settings. -/
def highlightMaxAnalyzedOffset : Nat := 10000000

def mappingLookup (field : List Char) : Option FieldMapping :=
  (createIndexMapping.find? (fun p => decide (p.1 = field))).map Prod.snd

/-- Counterexample to claim C9 as stated: the attachment-linkage fields
`is_attachment`, `parent_document_id` and `parent_filename` are absent
from the mapping that `create_index` establishes (they appear only in the
separate migration script's mapping). -/
theorem c9_counterexample :
    mappingLookup ("is_attachment".toList) = none ∧
    mappingLookup ("parent_document_id".toList) = none ∧
    mappingLookup ("parent_filename".toList) = none := by
  refine ⟨?_, ?_, ?_⟩
  · decide
  · decide
  · decide

/-- Claim C9, amended: the creation mapping realizes the specified schema
for all non-attachment fields — filename and file_path are analyzed text
with a keyword sub-field; extension, type, keywords and tags are
keyword-only; content and summary use the lowercase / asciifolding /
stop / snowball analyzer; indexed_at is a date, file_size numeric,
metadata an object — but the attachment-linkage fields are not present in
the index-creation mapping. -/
theorem c9_mapping_amended :
    mappingLookup ("filename".toList) = some ⟨.text, none, true⟩ ∧
    mappingLookup ("file_path".toList) = some ⟨.text, none, true⟩ ∧
    mappingLookup ("extension".toList) = some ⟨.keyword, none, false⟩ ∧
    mappingLookup ("type".toList) = some ⟨.keyword, none, false⟩ ∧
    mappingLookup ("keywords".toList) = some ⟨.keyword, none, false⟩ ∧
    mappingLookup ("tags".toList) = some ⟨.keyword, none, false⟩ ∧
    mappingLookup ("content".toList)
      = some ⟨.text, some "document_analyzer".toList, false⟩ ∧
    mappingLookup ("summary".toList)
      = some ⟨.text, some "document_analyzer".toList, false⟩ ∧
    mappingLookup ("indexed_at".toList) = some ⟨.date, none, false⟩ ∧
    mappingLookup ("file_size".toList) = some ⟨.long, none, false⟩ ∧
    mappingLookup ("metadata".toList) = some ⟨.object, none, false⟩ ∧
    documentAnalyzerFilters = ["lowercase".toList, "asciifolding".toList,
      "stop".toList, "snowball".toList] ∧
    mappingLookup ("is_attachment".toList) = none ∧
    mappingLookup ("parent_document_id".toList) = none ∧
    mappingLookup ("parent_filename".toList) = none := by
  decide
